import Mathlib

set_option maxRecDepth 4000

/-!
Shallow embedding of the delta-sync ingestion pipeline:
`logic/semantic_chunker.py`, `utils/metadata_injector.py`,
`logic/sync_engine.py` and `database/db_manager.py`.

Strings are modelled as `List Char`.  Python character classes (`\s`, `\d`,
`str.strip`) are modelled over their ASCII behaviour, which is the relevant
case for this repository's data (file names, checksums, extracted text).
-/

abbrev Str := List Char

def s2l (s : String) : Str := s.toList

/-- Python `\s` / `str.strip` whitespace, ASCII part: space, tab, newline,
carriage return, vertical tab, form feed. -/
def isPySpace (c : Char) : Bool :=
  decide (c = ' ') || decide (c = '\t') || decide (c = '\n') ||
  decide (c = '\r') || decide (c = '\x0b') || decide (c = '\x0c')

/-- Python `str.strip()`: drop leading and trailing whitespace. -/
def strip (s : Str) : Str :=
  ((s.dropWhile isPySpace).reverse.dropWhile isPySpace).reverse

/-! ## SemanticChunker (`logic/semantic_chunker.py`)

`re.split(r'\n\s*\n', text)` is embedded by a left-to-right scanner.  The
regex matches at position `i` iff `s[i] = '\n'` and the maximal whitespace
run following it contains another `'\n'`; greedy backtracking makes the
match extend exactly to the last `'\n'` of that run.  Fuel (`s.length`)
makes the scanner structurally recursive, hence kernel-computable. -/

/-- For a match of `\n\s*\n` starting at a `'\n'` followed by `rest`: the
part of the whitespace run of `rest` kept by the greedy match, i.e. the run
truncated after its last `'\n'` (empty when the run has no `'\n'`, meaning
no match starts here). -/
def paraKeep (rest : Str) : Str :=
  ((rest.takeWhile isPySpace).reverse.dropWhile (fun d => !(decide (d = '\n')))).reverse

def splitParasAux : Nat → Str → Str → List Str
  | _, cur, [] => [cur.reverse]
  | 0, cur, s => [cur.reverse ++ s]
  | fuel+1, cur, c :: rest =>
    if c = '\n' then
      if paraKeep rest = [] then splitParasAux fuel (c :: cur) rest
      else cur.reverse :: splitParasAux fuel [] (rest.drop (paraKeep rest).length)
    else splitParasAux fuel (c :: cur) rest

def splitParagraphs (s : Str) : List Str := splitParasAux s.length [] s

/-- Boundary test for `re.split(r'(?<=[.!?])\s+(?=[A-Z])', text)` at the
current scan position: previous consumed char (head of the reversed current
segment) is sentence punctuation, the current char starts a whitespace run,
and the first char after that run is an ASCII capital. -/
def sentBoundary (cur : Str) (c : Char) (rest : Str) : Bool :=
  (match cur.head? with
   | some p => decide (p = '.') || decide (p = '!') || decide (p = '?')
   | none => false) &&
  isPySpace c &&
  (match (rest.dropWhile isPySpace).head? with
   | some u => decide ('A' ≤ u) && decide (u ≤ 'Z')
   | none => false)

def splitSentsAux : Nat → Str → Str → List Str
  | _, cur, [] => [cur.reverse]
  | 0, cur, s => [cur.reverse ++ s]
  | fuel+1, cur, c :: rest =>
    if sentBoundary cur c rest then
      cur.reverse :: splitSentsAux fuel [] (rest.dropWhile isPySpace)
    else splitSentsAux fuel (c :: cur) rest

/-- `SemanticChunker._split_by_sentences`. -/
def split_by_sentences (text : Str) : List Str :=
  ((splitSentsAux text.length [] text).map strip).filter (fun x => !x.isEmpty)

structure ChunkState where
  chunks : List Str
  current : Str

/-- Inner loop body of `chunk_text` over the sentence chunks of an oversized
paragraph. -/
def processSentence (maxC : Nat) (st : ChunkState) (sc : Str) : ChunkState :=
  if st.current.length + sc.length + 1 ≤ maxC then
    { st with current := st.current ++ sc ++ [' '] }
  else
    { chunks := if st.current = [] then st.chunks else st.chunks ++ [strip st.current],
      current := sc ++ [' '] }

/-- Outer loop body of `chunk_text` over paragraphs. -/
def processPara (maxC : Nat) (st : ChunkState) (para0 : Str) : ChunkState :=
  if strip para0 = [] then st
  else if maxC < (strip para0).length then
    (split_by_sentences (strip para0)).foldl (processSentence maxC) st
  else if st.current.length + (strip para0).length + 2 ≤ maxC then
    { st with current := st.current ++ strip para0 ++ ['\n', '\n'] }
  else
    { chunks := if st.current = [] then st.chunks else st.chunks ++ [strip st.current],
      current := strip para0 ++ ['\n', '\n'] }

/-- `SemanticChunker.chunk_text` (`max_chunk_chars` is the constructor
argument, default 3000). -/
def chunk_text (maxC : Nat) (text : Str) : List Str :=
  if text = [] ∨ strip text = [] then []
  else
    let paragraphs := splitParagraphs (strip text)
    let st := paragraphs.foldl (processPara maxC) { chunks := [], current := [] }
    if strip st.current = [] then st.chunks else st.chunks ++ [strip st.current]

/-! ## MetadataInjector (`utils/metadata_injector.py`) -/

/-- Input metadata dictionary restricted to the four recognised keys; `none`
models an absent key, `some v` a key present with string value `v`. -/
structure MetaDict where
  title : Option Str
  author : Option Str
  year : Option Str
  internal_page_number : Option Str

structure ChunkMetadata where
  title : Str
  author : Str
  year : Str
  internal_page_number : Str

/-- Pydantic validation of `ChunkMetadata`: `title`, `author`, `year` use the
plain default `"Unknown"` (applied only when the key is absent), while
`internal_page_number` has a `pre=True, always=True` validator mapping falsy
or whitespace-only values to `"Unknown"` and stripping other values. -/
def validateMeta (d : MetaDict) : ChunkMetadata :=
  { title := d.title.getD (s2l "Unknown"),
    author := d.author.getD (s2l "Unknown"),
    year := d.year.getD (s2l "Unknown"),
    internal_page_number :=
      match d.internal_page_number with
      | none => s2l "Unknown"
      | some v => if v = [] ∨ strip v = [] then s2l "Unknown" else strip v }

/-- The fixed markdown block appended by `inject_metadata`. -/
def metadataBlock (m : ChunkMetadata) : Str :=
  s2l "\n\n--------------------------------------------------\n**SOURCE METADATA FOR FORENSIC EXTRACTION:**\n" ++
  (s2l "Title: " ++ m.title ++ s2l "\n") ++
  (s2l "Author: " ++ m.author ++ s2l "\n") ++
  (s2l "Year: " ++ m.year ++ s2l "\n") ++
  (s2l "Internal Pagination: " ++ m.internal_page_number ++ s2l "\n") ++
  s2l "--------------------------------------------------\n"

/-- `MetadataInjector.inject_metadata`. -/
def inject_metadata (raw : Str) (d : MetaDict) : Str :=
  if raw = [] ∨ strip raw = [] then raw
  else strip raw ++ metadataBlock (validateMeta d)

/-! ## ChecksumStore (`database/db_manager.py`) -/

structure DbRecord where
  file_name : Str
  checksum : Str
  status : Str
deriving DecidableEq

/-- The `uploaded_files` table keyed by `file_id`. -/
def Store := Str → Option DbRecord

/-- `DBManager.check_file_status`. -/
def check_file_status (store : Store) (file_id : Str) : Bool × Option Str :=
  match store file_id with
  | some r => (true, some r.checksum)
  | none => (false, none)

/-- `DBManager.mark_file_as_processed`: upsert keyed by `file_id`. -/
def mark_file_as_processed (store : Store) (file_id file_name checksum : Str) : Store :=
  fun i => if i = file_id then some ⟨file_name, checksum, s2l "synced"⟩ else store i

/-! ## SyncEngine (`logic/sync_engine.py`) -/

structure DriveFile where
  id : Str
  name : Str
  md5Checksum : Str
deriving DecidableEq

/-- `SyncEngine._get_files_to_process`. -/
def get_files_to_process (store : Store) : List DriveFile → List DriveFile
  | [] => []
  | f :: rest =>
    let st := check_file_status store f.id
    if st.1 = false then f :: get_files_to_process store rest
    else if st.2 ≠ some f.md5Checksum then f :: get_files_to_process store rest
    else get_files_to_process store rest

/-! ### `_parse_filename_metadata`

The pattern `^(?:(\d{4})\s*-\s*)?(?:(.*?)\s*-\s*)?(.*)$` is embedded as an
explicit backtracking search mirroring the regex engine:

* the optional year group commits `\d{4}`, then `\s*-` (the `\s*` has a
  single viable extent because `-` is not whitespace), then a greedy
  trailing `\s*` whose extent `k2` is retried from longest to shortest;
* the optional author group tries lazy extents `m` of `(.*?)` from shortest
  to longest (never across `'\n'`, which `.` does not match), then `\s*-`
  (single viable extent) and a greedy trailing `\s*` retried longest first;
* `(.*)$` succeeds iff the remainder has no `'\n'`, or a single trailing
  one (in which case the captured text drops it);
* a group that cannot lead to overall success is skipped (`?`).
-/

def wsRunLen (s : Str) : Nat := (s.takeWhile isPySpace).length

/-- Ascending search `start, start+1, …` over `n` candidates. -/
def searchM {α : Type} : Nat → Nat → (Nat → Option α) → Option α
  | 0, _, _ => none
  | n+1, start, f =>
    match f start with
    | some b => some b
    | none => searchM n (start + 1) f

/-- Descending search `k, k-1, …, 0`. -/
def searchDown {α : Type} : Nat → (Nat → Option α) → Option α
  | 0, f => f 0
  | k+1, f =>
    match f (k + 1) with
    | some b => some b
    | none => searchDown k f

/-- The `(.*)$` tail of the pattern: the captured text on success. -/
def dollarSplit (r : Str) : Option Str :=
  if '\n' ∉ r then some r
  else if r.getLast? = some '\n' ∧ '\n' ∉ r.dropLast then some r.dropLast
  else none

/-- One lazy candidate of the author group `(?:(.*?)\\s*-\\s*)?`: `(.*?)`
takes `m` characters (never a newline), `\\s*` must extend exactly to the
next `'-'`, and the trailing greedy `\\s*` extent is retried longest first
against the continuation `K`. -/
def authorCand (s' : Str) (K : Str → Option Str) (m : Nat) : Option (Str × Str) :=
  if '\n' ∈ s'.take m then none
  else
    match ((s'.drop m).drop (wsRunLen (s'.drop m))).head? with
    | some h =>
      if h = '-' then
        searchDown (wsRunLen ((s'.drop m).drop (wsRunLen (s'.drop m) + 1))) (fun k4 =>
          (K (((s'.drop m).drop (wsRunLen (s'.drop m) + 1)).drop k4)).map
            (fun t => (s'.take m, t)))
      else none
    | none => none

/-- The author group tried with continuation `K`: the first succeeding lazy
candidate wins, returning `(group 2, result of K)`. -/
def tryAuthorGroup (s' : Str) (K : Str → Option Str) : Option (Str × Str) :=
  searchM (s'.length + 1) 0 (authorCand s' K)

/-- Author group followed by `(.*)$`, including the group-skip alternative. -/
def authorThenRest (s' : Str) : Option (Option Str × Str) :=
  match tryAuthorGroup s' dollarSplit with
  | some (a, t) => some (some a, t)
  | none => (dollarSplit s').map (fun t => (none, t))

/-- The year group `(?:(\\d{4})\\s*-\\s*)?` tried with continuation `K`:
four digits, then `\\s*` extending exactly to a `'-'`, then a trailing
greedy `\\s*` whose extent is retried longest first. -/
def tryYearGroup (s : Str) (K : Str → Option (Option Str × Str)) :
    Option (Str × Option Str × Str) :=
  if (s.take 4).length = 4 ∧ (s.take 4).all Char.isDigit then
    match ((s.drop 4).drop (wsRunLen (s.drop 4))).head? with
    | some h =>
      if h = '-' then
        searchDown (wsRunLen ((s.drop 4).drop (wsRunLen (s.drop 4) + 1))) (fun k2 =>
          (K (((s.drop 4).drop (wsRunLen (s.drop 4) + 1)).drop k2)).map
            (fun at2 => (s.take 4, at2.1, at2.2)))
      else none
    | none => none
  else none

/-- `re.match` of the full pattern: `(group 1, group 2, group 3)`. -/
def matchParseRegex (s : Str) : Option (Option Str × Option Str × Str) :=
  match tryYearGroup s authorThenRest with
  | some (y, a, t) => some (some y, a, t)
  | none => (authorThenRest s).map (fun at2 => (none, at2.1, at2.2))

/-- Python `str.replace(pat, "")`: remove non-overlapping occurrences left
to right (here `pat = ".pdf"`). -/
def startsWithSeq : Str → Str → Bool
  | [], _ => true
  | _ :: _, [] => false
  | p :: ps, c :: cs => decide (p = c) && startsWithSeq ps cs

def replaceAllAux (pat : Str) : Nat → Str → Str
  | _, [] => []
  | 0, s => s
  | fuel+1, c :: rest =>
    if startsWithSeq pat (c :: rest) then
      replaceAllAux pat fuel ((c :: rest).drop pat.length)
    else c :: replaceAllAux pat fuel rest

def replaceAll (pat s : Str) : Str := replaceAllAux pat s.length s

/-- Python truthiness of `Optional[str]`. -/
def truthyOpt : Option Str → Bool
  | none => false
  | some s => !s.isEmpty

/-- `SyncEngine._parse_filename_metadata`, returning `(year, author, title)`:
truthy captured groups are stripped into the fields, the `Author - Title`
fallback fires when group 3 is falsy but group 2 truthy, and on a failed
match (or an all-falsy one) the defaults and the cleaned name survive. -/
def parse_filename_metadata (filename : Str) : Str × Str × Str :=
  match matchParseRegex (strip (replaceAll (s2l ".pdf") filename)) with
  | none => (s2l "Unknown", s2l "Unknown", strip (replaceAll (s2l ".pdf") filename))
  | some (ey, ea, et) =>
    if et ≠ [] then
      (if truthyOpt ey then strip (ey.getD []) else s2l "Unknown",
       if truthyOpt ea then strip (ea.getD []) else s2l "Unknown",
       strip et)
    else if truthyOpt ea then
      (if truthyOpt ey then strip (ey.getD []) else s2l "Unknown",
       s2l "Unknown",
       strip (ea.getD []))
    else
      (if truthyOpt ey then strip (ey.getD []) else s2l "Unknown",
       if truthyOpt ea then strip (ea.getD []) else s2l "Unknown",
       strip (replaceAll (s2l ".pdf") filename))

/-! ### `_process_single_file` / `_process_file_batch`

The external collaborators (Drive download, PDF extraction, disk write,
vector-store upload) are modelled as an environment of outcomes;
`Except.error ()` models a raised exception.  The per-file worker catches
every exception and returns `False`; the store is modified only on the
commit path. -/

structure PageData where
  text : Str
  internal_page_number : Str

structure PipelineEnv where
  download : Except Unit (Option Str)
  pages : Except Unit (List PageData)
  writeOk : Except Unit Unit
  upload : Except Unit Bool
  markOk : Bool

/-- The pure Phase-2.5 part of the worker: parse metadata from the file
name, chunk each page, inject metadata, join with blank lines. -/
def buildDocumentText (file_name : Str) (pages : List PageData) : Str :=
  let meta := parse_filename_metadata file_name
  let blocks := pages.flatMap (fun page =>
    (chunk_text 3000 page.text).map (fun chunk =>
      inject_metadata chunk
        ⟨some meta.2.2, some meta.2.1, some meta.1, some page.internal_page_number⟩))
  List.intercalate (s2l "\n\n") blocks

/-- `SyncEngine._process_single_file`: result flag and resulting store. -/
def process_single_file (env : PipelineEnv) (file : DriveFile) (store : Store) :
    Bool × Store :=
  match env.download with
  | .error _ => (false, store)
  | .ok none => (false, store)
  | .ok (some path) =>
    if path = [] then (false, store)
    else
      match env.pages with
      | .error _ => (false, store)
      | .ok pages =>
        let _doc := buildDocumentText file.name pages
        match env.writeOk with
        | .error _ => (false, store)
        | .ok _ =>
          match env.upload with
          | .error _ => (false, store)
          | .ok status =>
            if status then
              if env.markOk then
                (true, mark_file_as_processed store file.id file.name file.md5Checksum)
              else (false, store)
            else (false, store)

/-- Sequential linearisation of `asyncio.gather` over the per-file tasks
(all store accesses are serialised by the DB lock in the source). -/
def runBatchAux (envOf : Nat → PipelineEnv) :
    Nat → List DriveFile → Store → List Bool × Store
  | _, [], s => ([], s)
  | i, f :: rest, s =>
    let r := process_single_file (envOf i) f s
    let rec2 := runBatchAux envOf (i + 1) rest r.2
    (r.1 :: rec2.1, rec2.2)

/-- `SyncEngine._process_file_batch`: `(success_count, fail_count)` and the
final store; `fail_count = len(files) - success_count` as in the source. -/
def process_file_batch (envOf : Nat → PipelineEnv) (files : List DriveFile)
    (store : Store) : (Nat × Nat) × Store :=
  let rb := runBatchAux envOf 0 files store
  ((rb.1.count true, files.length - rb.1.count true), rb.2)

/-! ### Concurrency model for the admission semaphore

`_process_file_batch` guards every worker with `asyncio.Semaphore(10)`.
Workers are counted by lifecycle phase: `waiting` (created, not yet through
`async with semaphore`), `running` (inside the guarded section), `finished`.
A waiting worker may start only while fewer than `limit` workers run. -/

structure SemState where
  waiting : Nat
  running : Nat
  finished : Nat
deriving DecidableEq

inductive SemStep (limit : Nat) : SemState → SemState → Prop
  | acquire (w r f : Nat) : r < limit →
      SemStep limit ⟨w + 1, r, f⟩ ⟨w, r + 1, f⟩
  | release (w r f : Nat) :
      SemStep limit ⟨w, r + 1, f⟩ ⟨w, r, f + 1⟩

inductive SemReachable (limit n : Nat) : SemState → Prop
  | init : SemReachable limit n ⟨n, 0, 0⟩
  | step {s s' : SemState} : SemReachable limit n s → SemStep limit s s' →
      SemReachable limit n s'

/-! ## Helper lemmas -/

/-- Substring test used to state facts about the metadata block. -/
def containsSeq (pat : Str) : Str → Bool
  | [] => startsWithSeq pat []
  | c :: cs => startsWithSeq pat (c :: cs) || containsSeq pat cs

/-- The selection predicate of the delta comparison: no record, or stored
checksum differing from the remote one. -/
def selPred (store : Store) (f : DriveFile) : Bool :=
  match store f.id with
  | none => true
  | some r => decide (¬ r.checksum = f.md5Checksum)

lemma gftp_eq_filter (store : Store) (files : List DriveFile) :
    get_files_to_process store files = files.filter (selPred store) := by
  induction files with
  | nil => rfl
  | cons f rest ih =>
    cases h : store f.id with
    | none =>
      simp [get_files_to_process, check_file_status, h, List.filter_cons, selPred, ih]
    | some r =>
      by_cases hc : r.checksum = f.md5Checksum <;>
        simp [get_files_to_process, check_file_status, h, List.filter_cons, selPred, hc, ih]

def processQueue (store : Store) (q : List DriveFile) : Store :=
  q.foldl (fun s f => mark_file_as_processed s f.id f.name f.md5Checksum) store

lemma processQueue_cons (s : Store) (g : DriveFile) (t : List DriveFile) :
    processQueue s (g :: t) =
      processQueue (mark_file_as_processed s g.id g.name g.md5Checksum) t := rfl

lemma processQueue_not_mem (q : List DriveFile) (s : Store) (x : Str)
    (hx : x ∉ q.map DriveFile.id) : processQueue s q x = s x := by
  induction q generalizing s with
  | nil => rfl
  | cons g t ih =>
    simp only [List.map_cons, List.mem_cons, not_or] at hx
    rw [processQueue_cons, ih _ hx.2]
    simp [mark_file_as_processed, hx.1]

lemma processQueue_mem (q : List DriveFile) (s : Store) (f : DriveFile)
    (hnd : (q.map DriveFile.id).Nodup) (hf : f ∈ q) :
    processQueue s q f.id = some ⟨f.name, f.md5Checksum, s2l "synced"⟩ := by
  induction q generalizing s with
  | nil => cases hf
  | cons g t ih =>
    simp only [List.map_cons, List.nodup_cons] at hnd
    rw [processQueue_cons]
    rcases List.mem_cons.mp hf with hfg | hft
    · subst hfg
      rw [processQueue_not_mem _ _ _ hnd.1]
      simp [mark_file_as_processed]
    · exact ih _ hnd.2 hft

lemma second_run_nil (store : Store) (files : List DriveFile)
    (hnd : (files.map DriveFile.id).Nodup) :
    get_files_to_process (processQueue store (get_files_to_process store files)) files = [] := by
  rw [gftp_eq_filter store files, gftp_eq_filter]
  apply List.filter_eq_nil_iff.mpr
  intro f hf
  have hqnd : ((files.filter (selPred store)).map DriveFile.id).Nodup :=
    List.Nodup.sublist ((List.filter_sublist files).map DriveFile.id) hnd
  by_cases hsel : selPred store f = true
  · have hfq : f ∈ files.filter (selPred store) := List.mem_filter.mpr ⟨hf, hsel⟩
    have hupd := processQueue_mem _ store f hqnd hfq
    simp [selPred, hupd]
  · have hnotin : f.id ∉ (files.filter (selPred store)).map DriveFile.id := by
      intro hin
      rcases List.mem_map.mp hin with ⟨g, hgq, hgid⟩
      have hgf : g = f :=
        List.inj_on_of_nodup_map hnd (List.mem_filter.mp hgq).1 hf hgid
      subst hgf
      exact hsel (List.mem_filter.mp hgq).2
    have hunch := processQueue_not_mem _ store f.id hnotin
    rcases h : store f.id with _ | r
    · exact absurd (by simp [selPred, h]) hsel
    · have hcs : r.checksum = f.md5Checksum := by
        by_contra hne
        exact hsel (by simp [selPred, h, hne])
      simp [selPred, hunch, h, hcs]

/-! ## Claim theorems -/

/-- C1: `_get_files_to_process` returns exactly the listing entries whose id
has no store record or whose stored checksum differs byte-exactly from the
remote `md5Checksum`, in listing order (it equals the order-preserving
filter of the listing by that predicate). -/
theorem getFilesToProcess_delta_selection (store : Store) (files : List DriveFile) :
    get_files_to_process store files = files.filter (selPred store) ∧
    ∀ f, f ∈ get_files_to_process store files ↔
      f ∈ files ∧ (store f.id = none ∨
        ∃ r, store f.id = some r ∧ r.checksum ≠ f.md5Checksum) := by
  refine ⟨gftp_eq_filter store files, fun f => ?_⟩
  rw [gftp_eq_filter store files, List.mem_filter]
  constructor
  · rintro ⟨hmem, hp⟩
    refine ⟨hmem, ?_⟩
    rcases h : store f.id with _ | r
    · exact Or.inl rfl
    · rw [selPred, h] at hp
      exact Or.inr ⟨r, rfl, by simpa using hp⟩
  · rintro ⟨hmem, hsel⟩
    refine ⟨hmem, ?_⟩
    rcases hsel with h | ⟨r, hr, hne⟩
    · simp [selPred, h]
    · simp [selPred, hr, hne]

/-- C6: after every selected file of a listing with pairwise-distinct ids
has been successfully processed (its checksum upserted), re-running the
delta comparison on the same listing yields the empty queue; concretely,
for listing `[{id := "a", checksum := "x"}]` and an empty store the first
queue is the whole listing, processing records `a ↦ x`, and the second run
yields `[]`. -/
theorem deltaSync_idempotent (files : List DriveFile) (store : Store) (nm : Str)
    (hnd : (files.map DriveFile.id).Nodup) :
    get_files_to_process
      (processQueue store (get_files_to_process store files)) files = [] ∧
    get_files_to_process (fun _ => none) [⟨s2l "a", nm, s2l "x"⟩] =
      [⟨s2l "a", nm, s2l "x"⟩] ∧
    mark_file_as_processed (fun _ => none) (s2l "a") nm (s2l "x") (s2l "a") =
      some ⟨nm, s2l "x", s2l "synced"⟩ ∧
    get_files_to_process (mark_file_as_processed (fun _ => none) (s2l "a") nm (s2l "x"))
      [⟨s2l "a", nm, s2l "x"⟩] = [] := by
  refine ⟨second_run_nil store files hnd, rfl, ?_, ?_⟩
  · simp [mark_file_as_processed]
  · simp [get_files_to_process, check_file_status, mark_file_as_processed]

/-- C6 witness: the idempotence theorem applied to the concrete one-file
listing with an empty store. -/
theorem deltaSync_idempotent_witness :
    get_files_to_process
      (processQueue (fun _ => none)
        (get_files_to_process (fun _ => none) [⟨s2l "a", s2l "n", s2l "x"⟩]))
      [⟨s2l "a", s2l "n", s2l "x"⟩] = [] :=
  (deltaSync_idempotent [⟨s2l "a", s2l "n", s2l "x"⟩] (fun _ => none) (s2l "n")
    (by decide)).1

/-- C7: injecting metadata into an empty or whitespace-only chunk is a
no-op, and in particular the empty chunk maps to the empty string. -/
theorem injectMetadata_empty_noop (d : MetaDict) (c : Str) (h : strip c = []) :
    inject_metadata c d = c ∧ inject_metadata [] d = ([] : Str) := by
  constructor
  · unfold inject_metadata
    rw [if_pos (Or.inr h)]
  · rfl

/-- C7 witness: the no-op theorem at a concrete whitespace-only chunk. -/
theorem injectMetadata_empty_noop_witness :
    inject_metadata (s2l "  ") ⟨some (s2l "T"), none, none, none⟩ = s2l "  " ∧
    inject_metadata [] ⟨some (s2l "T"), none, none, none⟩ = ([] : Str) :=
  injectMetadata_empty_noop ⟨some (s2l "T"), none, none, none⟩ (s2l "  ") (by decide)

/-- C3 (amended): `inject_metadata` is total and degrades to defaults -
`title`, `author`, `year` equal `"Unknown"` exactly when the corresponding
key is absent from the metadata dict (a present empty or whitespace-only
string value is kept verbatim), while `internal_page_number` equals
`"Unknown"` when its key is absent, empty or whitespace-only; in particular
`inject_metadata "body" {}` returns `"body"` followed by the fixed block
containing `"Title: Unknown"`, `"Author: Unknown"`, `"Year: Unknown"` and
`"Internal Pagination: Unknown"`. -/
theorem injectMetadata_defaults (d : MetaDict) :
    (d.title = none → (validateMeta d).title = s2l "Unknown") ∧
    (d.author = none → (validateMeta d).author = s2l "Unknown") ∧
    (d.year = none → (validateMeta d).year = s2l "Unknown") ∧
    (d.internal_page_number = none →
      (validateMeta d).internal_page_number = s2l "Unknown") ∧
    (∀ v, d.internal_page_number = some v → strip v = [] →
      (validateMeta d).internal_page_number = s2l "Unknown") ∧
    (∀ raw, ¬ strip raw = [] →
      inject_metadata raw d = strip raw ++ metadataBlock (validateMeta d)) ∧
    inject_metadata (s2l "body") ⟨none, none, none, none⟩ =
      s2l "body" ++
        metadataBlock ⟨s2l "Unknown", s2l "Unknown", s2l "Unknown", s2l "Unknown"⟩ ∧
    containsSeq (s2l "Title: Unknown\n")
      (inject_metadata (s2l "body") ⟨none, none, none, none⟩) = true ∧
    containsSeq (s2l "Author: Unknown\n")
      (inject_metadata (s2l "body") ⟨none, none, none, none⟩) = true ∧
    containsSeq (s2l "Year: Unknown\n")
      (inject_metadata (s2l "body") ⟨none, none, none, none⟩) = true ∧
    containsSeq (s2l "Internal Pagination: Unknown\n")
      (inject_metadata (s2l "body") ⟨none, none, none, none⟩) = true := by
  refine ⟨?_, ?_, ?_, ?_, ?_, ?_, by decide, by decide, by decide, by decide, by decide⟩
  · intro h; simp [validateMeta, h]
  · intro h; simp [validateMeta, h]
  · intro h; simp [validateMeta, h]
  · intro h; simp [validateMeta, h]
  · intro v hv hs; simp [validateMeta, hv, hs]
  · intro raw hraw
    unfold inject_metadata
    rw [if_neg]
    rintro (hnil | hstrip)
    · exact hraw (by simp [hnil, strip])
    · exact hraw hstrip

/-- C3 witness: the defaults theorem instantiated at the empty dict, with
the absent-title antecedent discharged. -/
theorem injectMetadata_defaults_witness :
    (validateMeta ⟨none, none, none, none⟩).title = s2l "Unknown" ∧
    inject_metadata (s2l "body") ⟨none, none, none, none⟩ =
      s2l "body" ++
        metadataBlock ⟨s2l "Unknown", s2l "Unknown", s2l "Unknown", s2l "Unknown"⟩ :=
  ⟨(injectMetadata_defaults ⟨none, none, none, none⟩).1 rfl,
   (injectMetadata_defaults ⟨none, none, none, none⟩).2.2.2.2.2.2.1⟩

/-- C3 counterexample: for the metadata dict whose `title` key is present
with the empty-string value, the appended block's title field is the empty
string, not `"Unknown"` - the output of `inject_metadata "body" {title: ""}`
nowhere contains `"Title: Unknown"`, refuting the claim that a present but
empty field defaults to `"Unknown"`. -/
theorem injectMetadata_empty_value_counterexample :
    (validateMeta ⟨some [], none, none, none⟩).title = ([] : Str) ∧
    containsSeq (s2l "Title: Unknown")
      (inject_metadata (s2l "body") ⟨some [], none, none, none⟩) = false := by
  exact ⟨rfl, by decide⟩

lemma processSingleFile_false_of_upload_err (env : PipelineEnv) (file : DriveFile)
    (store : Store) (h : env.upload = Except.error ()) :
    (process_single_file env file store).1 = false := by
  rcases env with ⟨dl, pg, wr, up, mk⟩
  rcases dl with u | op
  · rfl
  · rcases op with _ | path
    · rfl
    · by_cases hp : path = []
      · simp [process_single_file, hp]
      · rcases pg with u | pages
        · simp [process_single_file, hp]
        · rcases wr with u | u
          · simp [process_single_file, hp]
          · simp only at h
            simp [process_single_file, hp, h]

/-- C2: the checksum record for a document is written exactly on the path
where the vector-store upload returned a truthy status (and the upsert
itself did not raise); on that path the result is `True` and the store maps
the file id to the remote checksum.  On every other path - download raised
or returned no path, extraction raised, writing the processed file raised,
upload raised or returned falsy - the result is `False` and the store is
completely unchanged, so the document stays selectable for retry. -/
theorem processSingleFile_commit_order (env : PipelineEnv) (file : DriveFile)
    (store : Store) :
    (((process_single_file env file store).1 = true ∧
      (process_single_file env file store).2 =
        mark_file_as_processed store file.id file.name file.md5Checksum ∧
      env.upload = Except.ok true ∧ env.markOk = true) ∨
     ((process_single_file env file store).1 = false ∧
      (process_single_file env file store).2 = store)) ∧
    ((env.download = Except.error () ∨ env.download = Except.ok none ∨
      env.download = Except.ok (some []) ∨ env.pages = Except.error () ∨
      env.writeOk = Except.error () ∨ env.upload = Except.error () ∨
      env.upload = Except.ok false) →
     (process_single_file env file store).1 = false ∧
     (process_single_file env file store).2 = store) := by
  rcases env with ⟨dl, pg, wr, up, mk⟩
  rcases dl with ⟨⟩ | op
  · exact ⟨Or.inr ⟨rfl, rfl⟩, fun _ => ⟨rfl, rfl⟩⟩
  · rcases op with _ | path
    · exact ⟨Or.inr ⟨rfl, rfl⟩, fun _ => ⟨rfl, rfl⟩⟩
    · by_cases hp : path = []
      · subst hp
        exact ⟨Or.inr ⟨rfl, rfl⟩, fun _ => ⟨rfl, rfl⟩⟩
      · rcases pg with ⟨⟩ | pages
        · refine ⟨Or.inr ?_, fun _ => ?_⟩ <;> simp [process_single_file, hp]
        · rcases wr with ⟨⟩ | ⟨⟩
          · refine ⟨Or.inr ?_, fun _ => ?_⟩ <;> simp [process_single_file, hp]
          · rcases up with ⟨⟩ | status
            · refine ⟨Or.inr ?_, fun _ => ?_⟩ <;> simp [process_single_file, hp]
            · cases status with
              | false =>
                refine ⟨Or.inr ?_, fun _ => ?_⟩ <;> simp [process_single_file, hp]
              | true =>
                cases mk with
                | false =>
                  refine ⟨Or.inr ?_, fun h => ?_⟩
                  · simp [process_single_file, hp]
                  · rcases h with h | h | h | h | h | h | h <;> simp_all
                | true =>
                  refine ⟨Or.inl ?_, fun h => ?_⟩
                  · refine ⟨?_, ?_, rfl, rfl⟩ <;> simp [process_single_file, hp]
                  · rcases h with h | h | h | h | h | h | h <;> simp_all

/-- C2 witness: the commit theorem at a concrete environment whose upload
raises, with the failure antecedent discharged. -/
theorem processSingleFile_commit_order_witness :
    (process_single_file
      ⟨Except.ok (some (s2l "p")), Except.ok [], Except.ok (), Except.error (), true⟩
      ⟨s2l "a", s2l "n", s2l "x"⟩ (fun _ => none)).1 = false ∧
    (process_single_file
      ⟨Except.ok (some (s2l "p")), Except.ok [], Except.ok (), Except.error (), true⟩
      ⟨s2l "a", s2l "n", s2l "x"⟩ (fun _ => none)).2 = (fun _ => none) :=
  (processSingleFile_commit_order
    ⟨Except.ok (some (s2l "p")), Except.ok [], Except.ok (), Except.error (), true⟩
    ⟨s2l "a", s2l "n", s2l "x"⟩ (fun _ => none)).2
    (Or.inr (Or.inr (Or.inr (Or.inr (Or.inr (Or.inl rfl))))))

lemma runBatchAux_length (envOf : Nat → PipelineEnv) :
    ∀ (files : List DriveFile) (start : Nat) (s : Store),
      (runBatchAux envOf start files s).1.length = files.length := by
  intro files
  induction files with
  | nil => intro start s; rfl
  | cons f rest ih =>
    intro start s
    simp [runBatchAux, ih]

lemma count_true_add_count_false (l : List Bool) :
    l.count true + l.count false = l.length := by
  induction l with
  | nil => rfl
  | cons b t ih => cases b <;> simp [List.count_cons, ih] <;> omega

lemma runBatchAux_get_false (envOf : Nat → PipelineEnv) :
    ∀ (files : List DriveFile) (start i : Nat) (s : Store),
      i < files.length → (envOf (start + i)).upload = Except.error () →
      (runBatchAux envOf start files s).1.get? i = some false := by
  intro files
  induction files with
  | nil =>
    intro start i s hi herr
    simp at hi
  | cons f rest ih =>
    intro start i s hi herr
    cases i with
    | zero =>
      simp only [Nat.add_zero] at herr
      simp [runBatchAux, processSingleFile_false_of_upload_err _ _ _ herr]
    | succ j =>
      have : start + 1 + j = start + (j + 1) := by omega
      simp only [runBatchAux, List.get?_cons_succ]
      exact ih (start + 1) j _ (by simpa using hi) (by rw [this]; exact herr)

/-- C8: every queued file yields exactly one boolean outcome (a raising
stage is converted to `False`, it never removes the file's slot or stops
the others), and the batch summary reports `success_count` and
`fail_count` with `success + fail = len(files)` and `fail` equal to the
number of `False` outcomes; a file whose upload raises always contributes
`False` at its own position. -/
theorem processFileBatch_counts (envOf : Nat → PipelineEnv) (files : List DriveFile)
    (store : Store) :
    (runBatchAux envOf 0 files store).1.length = files.length ∧
    (process_file_batch envOf files store).1.1 +
      (process_file_batch envOf files store).1.2 = files.length ∧
    (process_file_batch envOf files store).1.2 =
      (runBatchAux envOf 0 files store).1.count false ∧
    (∀ i, i < files.length → (envOf i).upload = Except.error () →
      (runBatchAux envOf 0 files store).1.get? i = some false) := by
  have hlen := runBatchAux_length envOf files 0 store
  have hcnt := count_true_add_count_false (runBatchAux envOf 0 files store).1
  have hle : (runBatchAux envOf 0 files store).1.count true ≤ files.length := by
    rw [← hlen]; exact List.count_le_length _ _
  refine ⟨hlen, ?_, ?_, ?_⟩
  · simp only [process_file_batch]
    omega
  · simp only [process_file_batch]
    omega
  · intro i hi herr
    exact runBatchAux_get_false envOf files 0 i store hi (by simpa using herr)

/-- C8 witness: the counting theorem at a concrete two-file batch whose
second file's upload raises. -/
theorem processFileBatch_counts_witness :
    (runBatchAux
      (fun i => if i = 0 then
          ⟨Except.ok (some (s2l "p")), Except.ok [], Except.ok (), Except.ok true, true⟩
        else
          ⟨Except.ok (some (s2l "p")), Except.ok [], Except.ok (), Except.error (), true⟩)
      0 [⟨s2l "a", s2l "n", s2l "x"⟩, ⟨s2l "b", s2l "m", s2l "y"⟩]
      (fun _ => none)).1.get? 1 = some false :=
  (processFileBatch_counts _ _ _).2.2.2 1 (by decide) rfl

lemma semReachable_inv {s : SemState} (h : SemReachable 10 15 s) :
    s.running ≤ 10 ∧ s.waiting + s.running + s.finished = 15 := by
  induction h with
  | init => exact ⟨by decide, rfl⟩
  | step hprev hstep ih =>
    cases hstep with
    | acquire w r f hr =>
      have h2 : (w + 1) + r + f = 15 := ih.2
      refine ⟨?_, ?_⟩
      · show r + 1 ≤ 10
        omega
      · show w + (r + 1) + f = 15
        omega
    | release w r f =>
      have h1 : r + 1 ≤ 10 := ih.1
      have h2 : w + (r + 1) + f = 15 := ih.2
      refine ⟨?_, ?_⟩
      · show r ≤ 10
        omega
      · show w + r + (f + 1) = 15
        omega

/-- C9: with 15 workers all gated by the counting semaphore of capacity 10,
every reachable execution state has at most 10 workers inside the guarded
processing section (and workers are conserved); moreover no single step
from a reachable state can bring the number of running workers above 10 -
an eleventh worker can only start after a running one releases the
semaphore. -/
theorem semaphore_concurrency_bound (s : SemState) (h : SemReachable 10 15 s) :
    s.running ≤ 10 ∧ s.waiting + s.running + s.finished = 15 ∧
    ∀ s', SemStep 10 s s' → s'.running ≤ 10 := by
  refine ⟨(semReachable_inv h).1, (semReachable_inv h).2, ?_⟩
  intro s' hstep
  cases hstep with
  | acquire w r f hr =>
    show r + 1 ≤ 10
    omega
  | release w r f =>
    have h1 : r + 1 ≤ 10 := (semReachable_inv h).1
    show r ≤ 10
    omega

/-- C9 witness: the bound at the initial state of a 15-file batch. -/
theorem semaphore_concurrency_bound_witness :
    (SemState.mk 15 0 0).running ≤ 10 ∧
    (SemState.mk 15 0 0).waiting + (SemState.mk 15 0 0).running +
      (SemState.mk 15 0 0).finished = 15 ∧
    ∀ s', SemStep 10 (SemState.mk 15 0 0) s' → s'.running ≤ 10 :=
  semaphore_concurrency_bound ⟨15, 0, 0⟩ SemReachable.init

/-! ## String lemmas for the chunker proofs -/

/-- The non-whitespace content of a string. -/
def nonWs (s : Str) : Str := s.filter (fun c => !isPySpace c)

lemma nonWs_append (a b : Str) : nonWs (a ++ b) = nonWs a ++ nonWs b := by
  simp [nonWs]

lemma nonWs_reverse (s : Str) : nonWs s.reverse = (nonWs s).reverse := by
  induction s with
  | nil => rfl
  | cons c t ih =>
    rw [List.reverse_cons, nonWs_append, ih]
    by_cases h : isPySpace c <;> simp [nonWs, List.filter_cons, h]

lemma nonWs_dropWhile (s : Str) : nonWs (s.dropWhile isPySpace) = nonWs s := by
  induction s with
  | nil => rfl
  | cons c t ih =>
    by_cases h : isPySpace c
    · rw [List.dropWhile_cons_of_pos h, ih]
      simp [nonWs, List.filter_cons, h]
    · rw [List.dropWhile_cons_of_neg h]

lemma nonWs_strip (s : Str) : nonWs (strip s) = nonWs s := by
  unfold strip
  rw [nonWs_reverse, nonWs_dropWhile, nonWs_reverse, nonWs_dropWhile]
  simp

lemma nonWs_eq_nil (s : Str) : nonWs s = [] ↔ ∀ c ∈ s, isPySpace c = true := by
  constructor
  · intro h c hc
    by_contra hcw
    have : c ∈ nonWs s := List.mem_filter.mpr ⟨hc, by simp [hcw]⟩
    simp [h] at this
  · intro h
    apply List.filter_eq_nil_iff.mpr
    intro c hc
    simp [h c hc]

lemma exists_dropWhile_suffix (p : Char → Bool) (l : Str) :
    ∃ t, t ++ l.dropWhile p = l := by
  induction l with
  | nil => exact ⟨[], rfl⟩
  | cons c t ih =>
    by_cases h : p c
    · obtain ⟨u, hu⟩ := ih
      exact ⟨c :: u, by simp [List.dropWhile_cons, h, hu]⟩
    · exact ⟨[], by simp [List.dropWhile_cons, h]⟩

lemma len_dropWhile_le (p : Char → Bool) (l : Str) :
    (l.dropWhile p).length ≤ l.length := by
  obtain ⟨t, ht⟩ := exists_dropWhile_suffix p l
  calc (l.dropWhile p).length ≤ t.length + (l.dropWhile p).length := by omega
  _ = l.length := by rw [← List.length_append, ht]

lemma strip_length_le (s : Str) : (strip s).length ≤ s.length := by
  unfold strip
  calc ((s.dropWhile isPySpace).reverse.dropWhile isPySpace).reverse.length
      = ((s.dropWhile isPySpace).reverse.dropWhile isPySpace).length := by simp
    _ ≤ (s.dropWhile isPySpace).reverse.length := len_dropWhile_le _ _
    _ = (s.dropWhile isPySpace).length := by simp
    _ ≤ s.length := len_dropWhile_le _ _

lemma strip_eq_nil_iff (s : Str) : strip s = [] ↔ nonWs s = [] := by
  constructor
  · intro h
    rw [← nonWs_strip, h]
    rfl
  · intro h
    have hall : ∀ c ∈ s, isPySpace c = true := (nonWs_eq_nil s).mp h
    have hdw : s.dropWhile isPySpace = [] := by
      apply List.dropWhile_eq_nil_iff.mpr
      intro c hc
      exact hall c hc
    unfold strip
    rw [hdw]
    rfl

lemma mem_takeWhile_pred {p : Char → Bool} :
    ∀ {s : Str} {c : Char}, c ∈ s.takeWhile p → p c = true := by
  intro s
  induction s with
  | nil => intro c hc; simp [List.takeWhile_nil] at hc
  | cons a t ih =>
    intro c hc
    by_cases h : p a
    · rw [List.takeWhile_cons_of_pos h] at hc
      rcases List.mem_cons.mp hc with rfl | hct
      · exact h
      · exact ih hct
    · rw [List.takeWhile_cons_of_neg h] at hc
      simp at hc

lemma dropWhile_append_allws {p : Char → Bool} (a b : Str)
    (ha : ∀ c ∈ a, p c = true) : (a ++ b).dropWhile p = b.dropWhile p := by
  induction a with
  | nil => rfl
  | cons c t ih =>
    have hc : p c = true := ha c (List.mem_cons_self c t)
    rw [List.cons_append, List.dropWhile_cons_of_pos hc]
    exact ih (fun d hd => ha d (List.mem_cons_of_mem c hd))

lemma strip_append_allws (s t2 : Str) (ht : ∀ c ∈ t2, isPySpace c = true) :
    strip (s ++ t2) = strip s := by
  induction s with
  | nil =>
    simp only [List.nil_append]
    rw [(strip_eq_nil_iff t2).mpr ((nonWs_eq_nil t2).mpr ht)]
    rfl
  | cons c s' ih =>
    show strip (c :: (s' ++ t2)) = strip (c :: s')
    by_cases hc : isPySpace c
    · have h1 : strip (c :: (s' ++ t2)) = strip (s' ++ t2) := by
        unfold strip
        rw [List.dropWhile_cons_of_pos hc]
      have h2 : strip (c :: s') = strip s' := by
        unfold strip
        rw [List.dropWhile_cons_of_pos hc]
      rw [h1, h2, ih]
    · unfold strip
      rw [List.dropWhile_cons_of_neg hc, List.dropWhile_cons_of_neg hc]
      rw [List.reverse_cons, List.reverse_cons, List.reverse_append, List.append_assoc]
      rw [dropWhile_append_allws t2.reverse (s'.reverse ++ [c])
        (fun d hd => ht d (by simpa using hd))]

lemma nonWs_space_char : nonWs [' '] = [] := rfl

lemma nonWs_nl2 : nonWs ['\n', '\n'] = [] := rfl

lemma nonWs_cons_of_ws {c : Char} {t : Str} (h : isPySpace c = true) :
    nonWs (c :: t) = nonWs t := by
  simp [nonWs, List.filter_cons, h]

lemma dropWhile_head_not {p : Char → Bool} :
    ∀ {l : Str} {c : Char} {t : Str}, l.dropWhile p = c :: t → p c = false := by
  intro l
  induction l with
  | nil => intro c t h; simp at h
  | cons a l' ih =>
    intro c t h
    by_cases ha : p a
    · rw [List.dropWhile_cons_of_pos ha] at h
      exact ih h
    · rw [List.dropWhile_cons_of_neg ha] at h
      cases h
      simpa using ha

lemma dropWhile_idem (p : Char → Bool) (l : Str) :
    (l.dropWhile p).dropWhile p = l.dropWhile p := by
  rcases hd : l.dropWhile p with _ | ⟨c, t⟩
  · rfl
  · have hc := dropWhile_head_not hd
    rw [List.dropWhile_cons_of_neg (by simp [hc])]

lemma strip_idem (s : Str) : strip (strip s) = strip s := by
  have hB : strip s = ((s.dropWhile isPySpace).reverse.dropWhile isPySpace).reverse := rfl
  rcases hBr : ((s.dropWhile isPySpace).reverse.dropWhile isPySpace).reverse with _ | ⟨x, xs⟩
  · rw [hB, hBr]
    rfl
  · obtain ⟨t, htt⟩ := exists_dropWhile_suffix isPySpace (s.dropWhile isPySpace).reverse
    have hrev : ((s.dropWhile isPySpace).reverse.dropWhile isPySpace).reverse ++ t.reverse
        = s.dropWhile isPySpace := by
      have h2 := congrArg List.reverse htt
      simpa [List.reverse_append] using h2
    rw [hBr] at hrev
    have hx : isPySpace x = false := by
      rcases hA : s.dropWhile isPySpace with _ | ⟨a, A'⟩
      · rw [hA] at hrev
        simp at hrev
      · rw [hA] at hrev
        have hxa : x = a := by
          have h3 := congrArg List.head? hrev
          simpa using h3
        rw [hxa]
        exact dropWhile_head_not hA
    rw [hB, hBr]
    show strip (x :: xs) = x :: xs
    unfold strip
    rw [List.dropWhile_cons_of_neg (by simp [hx])]
    have h2 : (x :: xs).reverse = (s.dropWhile isPySpace).reverse.dropWhile isPySpace := by
      rw [← hBr, List.reverse_reverse]
    rw [h2, dropWhile_idem, ← h2, List.reverse_reverse]

lemma strip_sentence_elem {t ch : Str} (h : ch ∈ split_by_sentences t) :
    strip ch = ch := by
  unfold split_by_sentences at h
  obtain ⟨hmem, -⟩ := List.mem_filter.mp h
  obtain ⟨x, -, rfl⟩ := List.mem_map.mp hmem
  exact strip_idem x

lemma paraKeep_parts (rest : Str) :
    (∀ c ∈ paraKeep rest, isPySpace c = true) ∧
    nonWs (rest.drop (paraKeep rest).length) = nonWs rest := by
  obtain ⟨u, hu⟩ := exists_dropWhile_suffix (fun d => !(decide (d = '\n')))
    (rest.takeWhile isPySpace).reverse
  have hk : paraKeep rest ++ u.reverse = rest.takeWhile isPySpace := by
    unfold paraKeep
    have h2 := congrArg List.reverse hu
    simpa [List.reverse_append] using h2
  have hkeepws : ∀ c ∈ paraKeep rest, isPySpace c = true := by
    intro c hc
    exact mem_takeWhile_pred (hk ▸ List.mem_append_left _ hc)
  refine ⟨hkeepws, ?_⟩
  have hrest : rest = paraKeep rest ++ (u.reverse ++ rest.dropWhile isPySpace) := by
    conv_lhs => rw [← List.takeWhile_append_dropWhile (p := isPySpace) (l := rest)]
    rw [← hk, List.append_assoc]
  have hdrop : rest.drop (paraKeep rest).length = u.reverse ++ rest.dropWhile isPySpace := by
    have h2 := List.drop_left (paraKeep rest) (u.reverse ++ rest.dropWhile isPySpace)
    rw [← hrest] at h2
    exact h2
  rw [hdrop]
  conv_rhs => rw [hrest]
  rw [nonWs_append (paraKeep rest), (nonWs_eq_nil (paraKeep rest)).mpr hkeepws]
  rfl

lemma splitParasAux_nonWs :
    ∀ (fuel : Nat) (s cur : Str), s.length ≤ fuel →
      ((splitParasAux fuel cur s).map nonWs).flatten = nonWs cur.reverse ++ nonWs s := by
  intro fuel
  induction fuel with
  | zero =>
    intro s cur h
    have hs : s = [] := List.length_eq_zero.mp (Nat.le_zero.mp h)
    subst hs
    simp [splitParasAux, nonWs]
  | succ fuel ih =>
    intro s cur h
    cases s with
    | nil => simp [splitParasAux, nonWs]
    | cons c rest =>
      have hlen : rest.length ≤ fuel := by
        simp at h
        omega
      by_cases hc : c = '\n'
      · by_cases hk : paraKeep rest = []
        · rw [splitParasAux, if_pos hc, if_pos hk, ih rest (c :: cur) hlen]
          subst hc
          simp [List.reverse_cons, nonWs_append, nonWs, List.filter_cons, isPySpace]
        · rw [splitParasAux, if_pos hc, if_neg hk]
          have hlen2 : (rest.drop (paraKeep rest).length).length ≤ fuel := by
            rw [List.length_drop]
            omega
          rw [List.map_cons, List.flatten_cons, ih _ [] hlen2]
          obtain ⟨-, hnd⟩ := paraKeep_parts rest
          subst hc
          rw [show nonWs (List.reverse ([] : Str)) = [] from rfl, List.nil_append, hnd,
            nonWs_cons_of_ws (show isPySpace '\n' = true from rfl)]
      · rw [splitParasAux, if_neg hc, ih rest (c :: cur) hlen]
        by_cases hw : isPySpace c <;>
          simp [List.reverse_cons, nonWs_append, nonWs, List.filter_cons,
            List.filter_append, hw]

lemma splitSentsAux_nonWs :
    ∀ (fuel : Nat) (s cur : Str), s.length ≤ fuel →
      ((splitSentsAux fuel cur s).map nonWs).flatten = nonWs cur.reverse ++ nonWs s := by
  intro fuel
  induction fuel with
  | zero =>
    intro s cur h
    have hs : s = [] := List.length_eq_zero.mp (Nat.le_zero.mp h)
    subst hs
    simp [splitSentsAux, nonWs]
  | succ fuel ih =>
    intro s cur h
    cases s with
    | nil => simp [splitSentsAux, nonWs]
    | cons c rest =>
      have hlen : rest.length ≤ fuel := by
        simp at h
        omega
      by_cases hb : sentBoundary cur c rest = true
      · rw [splitSentsAux, if_pos hb]
        have hcw : isPySpace c = true := by
          simp only [sentBoundary, Bool.and_eq_true] at hb
          exact hb.1.2
        have hlen2 : (rest.dropWhile isPySpace).length ≤ fuel :=
          le_trans (len_dropWhile_le _ _) hlen
        rw [List.map_cons, List.flatten_cons, ih _ [] hlen2]
        rw [show nonWs (List.reverse ([] : Str)) = [] from rfl, List.nil_append,
          nonWs_dropWhile, nonWs_cons_of_ws hcw]
      · rw [splitSentsAux, if_neg hb, ih rest (c :: cur) hlen]
        by_cases hw : isPySpace c <;>
          simp [List.reverse_cons, nonWs_append, nonWs, List.filter_cons,
            List.filter_append, hw]

lemma join_nonWs_strip_filter (L : List Str) :
    (((L.map strip).filter (fun x => !x.isEmpty)).map nonWs).flatten = (L.map nonWs).flatten := by
  induction L with
  | nil => rfl
  | cons x T ih =>
    by_cases hx : (strip x).isEmpty
    · have hnw : nonWs x = [] := by
        rw [← nonWs_strip]
        rw [List.isEmpty_iff.mp hx]
        rfl
      simp [List.filter_cons, hx, ih, hnw]
    · simp [List.filter_cons, hx, ih, nonWs_strip]

lemma split_by_sentences_nonWs (t : Str) :
    ((split_by_sentences t).map nonWs).flatten = nonWs t := by
  unfold split_by_sentences
  rw [join_nonWs_strip_filter, splitSentsAux_nonWs t.length t [] (le_refl _)]
  rfl

/-- Non-whitespace content carried by a chunker state: emitted chunks plus
the chunk under construction. -/
def stContent (st : ChunkState) : Str :=
  (st.chunks.map nonWs).flatten ++ nonWs st.current

lemma nonWs_flatten (L : List Str) : nonWs L.flatten = (L.map nonWs).flatten := by
  induction L with
  | nil => rfl
  | cons a T ih =>
    rw [List.flatten_cons, nonWs_append, ih, List.map_cons, List.flatten_cons]

lemma stContent_processSentence (maxC : Nat) (st : ChunkState) (sc : Str) :
    stContent (processSentence maxC st sc) = stContent st ++ nonWs sc := by
  unfold processSentence stContent
  by_cases h1 : st.current.length + sc.length + 1 ≤ maxC
  · rw [if_pos h1]
    simp only []
    rw [nonWs_append, nonWs_append, nonWs_space_char, List.append_nil, List.append_assoc]
  · rw [if_neg h1]
    by_cases h2 : st.current = []
    · rw [if_pos h2]
      simp only [h2]
      rw [nonWs_append, nonWs_space_char, List.append_nil,
        show nonWs ([] : Str) = [] from rfl, List.append_nil]
    · rw [if_neg h2]
      simp only []
      rw [List.map_append, List.flatten_append, nonWs_append, nonWs_space_char,
        List.append_nil]
      simp [nonWs_strip, List.append_assoc]

lemma stContent_foldl_sent (maxC : Nat) :
    ∀ (L : List Str) (st : ChunkState),
      stContent (L.foldl (processSentence maxC) st) = stContent st ++ (L.map nonWs).flatten := by
  intro L
  induction L with
  | nil => intro st; simp
  | cons sc T ih =>
    intro st
    rw [List.foldl_cons, List.map_cons, List.flatten_cons, ih,
      stContent_processSentence, List.append_assoc]

lemma stContent_processPara (maxC : Nat) (st : ChunkState) (p : Str) :
    stContent (processPara maxC st p) = stContent st ++ nonWs p := by
  unfold processPara
  by_cases h0 : strip p = []
  · rw [if_pos h0]
    have : nonWs p = [] := by rw [← nonWs_strip, h0]; rfl
    rw [this, List.append_nil]
  · rw [if_neg h0]
    by_cases h1 : maxC < (strip p).length
    · rw [if_pos h1, stContent_foldl_sent, split_by_sentences_nonWs, nonWs_strip]
    · rw [if_neg h1]
      by_cases h2 : st.current.length + (strip p).length + 2 ≤ maxC
      · rw [if_pos h2]
        unfold stContent
        simp only []
        rw [nonWs_append, nonWs_append, nonWs_nl2, List.append_nil, nonWs_strip,
          List.append_assoc]
      · rw [if_neg h2]
        by_cases h3 : st.current = []
        · rw [if_pos h3]
          unfold stContent
          simp only [h3]
          rw [nonWs_append, nonWs_nl2, List.append_nil, nonWs_strip,
            show nonWs ([] : Str) = [] from rfl, List.append_nil]
        · rw [if_neg h3]
          unfold stContent
          simp only []
          rw [List.map_append, List.flatten_append, nonWs_append, nonWs_nl2,
            List.append_nil]
          simp [nonWs_strip, List.append_assoc]

lemma stContent_foldl_para (maxC : Nat) :
    ∀ (L : List Str) (st : ChunkState),
      stContent (L.foldl (processPara maxC) st) = stContent st ++ (L.map nonWs).flatten := by
  intro L
  induction L with
  | nil => intro st; simp
  | cons p T ih =>
    intro st
    rw [List.foldl_cons, List.map_cons, List.flatten_cons, ih,
      stContent_processPara, List.append_assoc]

/-- C5: concatenating the chunks of `chunk_text` in order preserves exactly
the non-whitespace characters of the input in their original order, and an
empty or whitespace-only input yields the empty chunk sequence. -/
theorem chunkText_content_preservation (maxC : Nat) (text : Str) :
    nonWs ((chunk_text maxC text).flatten) = nonWs text ∧
    (nonWs text = [] → chunk_text maxC text = []) := by
  constructor
  · unfold chunk_text
    by_cases h0 : text = [] ∨ strip text = []
    · rw [if_pos h0]
      rcases h0 with rfl | hs
      · rfl
      · exact ((strip_eq_nil_iff text).mp hs).symm
    · rw [if_neg h0]
      simp only []
      have hst := stContent_foldl_para maxC (splitParagraphs (strip text))
        { chunks := [], current := [] }
      have hparas : ((splitParagraphs (strip text)).map nonWs).flatten = nonWs (strip text) := by
        rw [splitParagraphs, splitParasAux_nonWs (strip text).length (strip text) [] (le_refl _)]
        rfl
      have hinit : stContent { chunks := [], current := [] } = [] := rfl
      have hcontent :
          stContent ((splitParagraphs (strip text)).foldl (processPara maxC)
            { chunks := [], current := [] }) = nonWs text := by
        rw [hst, hinit, List.nil_append, hparas, nonWs_strip]
      set st := (splitParagraphs (strip text)).foldl (processPara maxC)
        { chunks := [], current := [] } with hstdef
      by_cases hcur : strip st.current = []
      · rw [if_pos hcur]
        have hc0 : nonWs st.current = [] := by rw [← nonWs_strip, hcur]; rfl
        rw [nonWs_flatten]
        rw [← hcontent]
        unfold stContent
        rw [hc0, List.append_nil]
      · rw [if_neg hcur]
        rw [nonWs_flatten, List.map_append, List.flatten_append]
        rw [← hcontent]
        unfold stContent
        simp [nonWs_strip]
  · intro h
    unfold chunk_text
    rw [if_pos (Or.inr ((strip_eq_nil_iff text).mpr h))]

/-- C5 witness: the preservation theorem applied at a concrete whitespace
input, with the whitespace-only antecedent discharged. -/
theorem chunkText_content_preservation_witness :
    chunk_text 5 (s2l " \n ") = [] :=
  (chunkText_content_preservation 5 (s2l " \n ")).2 (by decide)

/-- The oversized-chunk exception of the chunker: the chunk is verbatim one
of the sentence fragments of an oversized paragraph, itself longer than the
limit. -/
def oversizedSentence (maxC : Nat) (paras : List Str) (ch : Str) : Prop :=
  ∃ p ∈ paras, maxC < (strip p).length ∧ ch ∈ split_by_sentences (strip p)

/-- Invariant of the chunker loop: the pending chunk and every emitted chunk
are within the limit or are a single oversized sentence. -/
def goodSt (maxC : Nat) (paras : List Str) (st : ChunkState) : Prop :=
  ((strip st.current).length ≤ maxC ∨ oversizedSentence maxC paras (strip st.current)) ∧
  ∀ ch ∈ st.chunks, ch.length ≤ maxC ∨ oversizedSentence maxC paras ch

lemma strip_append_space (sc : Str) : strip (sc ++ [' ']) = strip sc :=
  strip_append_allws sc [' '] (by
    intro c hc
    rcases List.mem_singleton.mp hc with rfl
    decide)

lemma strip_append_nl2 (p : Str) : strip (p ++ ['\n', '\n']) = strip p :=
  strip_append_allws p ['\n', '\n'] (by
    intro c hc
    rcases List.mem_cons.mp hc with rfl | hc2
    · decide
    · rcases List.mem_singleton.mp hc2 with rfl
      decide)

lemma goodSt_processSentence {maxC : Nat} {paras : List Str} {st : ChunkState}
    {p sc : Str} (hp : p ∈ paras) (hbig : maxC < (strip p).length)
    (hsc : sc ∈ split_by_sentences (strip p)) (hg : goodSt maxC paras st) :
    goodSt maxC paras (processSentence maxC st sc) := by
  have hscs : strip sc = sc := strip_sentence_elem hsc
  unfold processSentence
  by_cases h1 : st.current.length + sc.length + 1 ≤ maxC
  · rw [if_pos h1]
    refine ⟨Or.inl ?_, hg.2⟩
    calc (strip (st.current ++ sc ++ [' '])).length
        ≤ (st.current ++ sc ++ [' ']).length := strip_length_le _
      _ = st.current.length + sc.length + 1 := by simp; omega
      _ ≤ maxC := h1
  · rw [if_neg h1]
    constructor
    · right
      show oversizedSentence maxC paras (strip (sc ++ [' ']))
      rw [strip_append_space, hscs]
      exact ⟨p, hp, hbig, hsc⟩
    · intro ch hch
      by_cases h2 : st.current = []
      · rw [if_pos h2] at hch
        exact hg.2 ch hch
      · rw [if_neg h2] at hch
        rcases List.mem_append.mp hch with hch | hch
        · exact hg.2 ch hch
        · rw [List.mem_singleton.mp hch]
          exact hg.1

lemma goodSt_foldl_sent {maxC : Nat} {paras : List Str} {p : Str}
    (hp : p ∈ paras) (hbig : maxC < (strip p).length) :
    ∀ (L : List Str) (st : ChunkState),
      (∀ sc ∈ L, sc ∈ split_by_sentences (strip p)) →
      goodSt maxC paras st →
      goodSt maxC paras (L.foldl (processSentence maxC) st) := by
  intro L
  induction L with
  | nil => intro st _ hg; exact hg
  | cons sc T ih =>
    intro st hmem hg
    rw [List.foldl_cons]
    exact ih _ (fun x hx => hmem x (List.mem_cons_of_mem _ hx))
      (goodSt_processSentence hp hbig (hmem sc (List.mem_cons_self _ _)) hg)

lemma goodSt_processPara {maxC : Nat} {paras : List Str} {st : ChunkState}
    {p : Str} (hp : p ∈ paras) (hg : goodSt maxC paras st) :
    goodSt maxC paras (processPara maxC st p) := by
  unfold processPara
  by_cases h0 : strip p = []
  · rw [if_pos h0]
    exact hg
  · rw [if_neg h0]
    by_cases h1 : maxC < (strip p).length
    · rw [if_pos h1]
      exact goodSt_foldl_sent hp h1 _ st (fun sc hsc => hsc) hg
    · rw [if_neg h1]
      by_cases h2 : st.current.length + (strip p).length + 2 ≤ maxC
      · rw [if_pos h2]
        refine ⟨Or.inl ?_, hg.2⟩
        calc (strip (st.current ++ strip p ++ ['\n', '\n'])).length
            ≤ (st.current ++ strip p ++ ['\n', '\n']).length := strip_length_le _
          _ = st.current.length + (strip p).length + 2 := by simp; omega
          _ ≤ maxC := h2
      · rw [if_neg h2]
        constructor
        · left
          show (strip (strip p ++ ['\n', '\n'])).length ≤ maxC
          rw [strip_append_nl2, strip_idem]
          omega
        · intro ch hch
          by_cases h3 : st.current = []
          · rw [if_pos h3] at hch
            exact hg.2 ch hch
          · rw [if_neg h3] at hch
            rcases List.mem_append.mp hch with hch | hch
            · exact hg.2 ch hch
            · rw [List.mem_singleton.mp hch]
              exact hg.1

lemma goodSt_foldl_para {maxC : Nat} {paras : List Str} :
    ∀ (L : List Str) (st : ChunkState), (∀ q ∈ L, q ∈ paras) →
      goodSt maxC paras st →
      goodSt maxC paras (L.foldl (processPara maxC) st) := by
  intro L
  induction L with
  | nil => intro st _ hg; exact hg
  | cons q T ih =>
    intro st hmem hg
    rw [List.foldl_cons]
    exact ih _ (fun x hx => hmem x (List.mem_cons_of_mem _ hx))
      (goodSt_processPara (hmem q (List.mem_cons_self _ _)) hg)

/-- C4: for every input and positive limit, every chunk produced by
`chunk_text` has length at most the limit, except that an oversized chunk
is always verbatim a single sentence (of an oversized paragraph of the
input) whose own length exceeds the limit - nothing is ever truncated. -/
theorem chunkText_size_bound (maxC : Nat) (text : Str) (_hpos : 0 < maxC) :
    ∀ ch ∈ chunk_text maxC text,
      ch.length ≤ maxC ∨
      (maxC < ch.length ∧
        ∃ p ∈ splitParagraphs (strip text),
          maxC < (strip p).length ∧ ch ∈ split_by_sentences (strip p)) := by
  intro ch hch
  unfold chunk_text at hch
  by_cases h0 : text = [] ∨ strip text = []
  · rw [if_pos h0] at hch
    simp at hch
  · rw [if_neg h0] at hch
    have hgood : goodSt maxC (splitParagraphs (strip text))
        ((splitParagraphs (strip text)).foldl (processPara maxC)
          { chunks := [], current := [] }) := by
      apply goodSt_foldl_para _ _ (fun q hq => hq)
      constructor
      · left
        exact Nat.zero_le maxC
      · intro ch2 hch2
        simp at hch2
    set st := (splitParagraphs (strip text)).foldl (processPara maxC)
      { chunks := [], current := [] } with hst
    have hch' : ch ∈ st.chunks ∨ ch = strip st.current := by
      by_cases hcur : strip st.current = []
      · rw [if_pos hcur] at hch
        exact Or.inl hch
      · rw [if_neg hcur] at hch
        rcases List.mem_append.mp hch with h | h
        · exact Or.inl h
        · exact Or.inr (List.mem_singleton.mp h)
    have hdisj : ch.length ≤ maxC ∨
        oversizedSentence maxC (splitParagraphs (strip text)) ch := by
      rcases hch' with h | heq
      · exact hgood.2 ch h
      · rw [heq]
        exact hgood.1
    rcases hdisj with h | h
    · exact Or.inl h
    · by_cases hle : ch.length ≤ maxC
      · exact Or.inl hle
      · obtain ⟨p, hpm, hb, hm⟩ := h
        exact Or.inr ⟨not_le.mp hle, p, hpm, hb, hm⟩

/-- C4 witness: the size-bound theorem at limit 3 on the input `"ab"`,
whose single chunk is `"ab"`. -/
theorem chunkText_size_bound_witness :
    (s2l "ab").length ≤ 3 ∨
      (3 < (s2l "ab").length ∧
        ∃ p ∈ splitParagraphs (strip (s2l "ab")),
          3 < (strip p).length ∧ s2l "ab" ∈ split_by_sentences (strip p)) :=
  chunkText_size_bound 3 (s2l "ab") (by decide) (s2l "ab") (by decide)

/-! ## Lemmas for the `_parse_filename_metadata` regex embedding -/

lemma searchM_none {α : Type} (f : Nat → Option α) :
    ∀ (n start : Nat), (∀ i, f i = none) → searchM n start f = none := by
  intro n
  induction n with
  | zero => intro start h; rfl
  | succ n ih =>
    intro start h
    unfold searchM
    rw [h start]
    exact ih (start + 1) h

lemma searchM_first {α : Type} (f : Nat → Option α) :
    ∀ (n start : Nat) (b : α), searchM n start f = some b →
      ∃ i, start ≤ i ∧ i < start + n ∧ f i = some b ∧
        ∀ j, start ≤ j → j < i → f j = none := by
  intro n
  induction n with
  | zero => intro start b h; simp [searchM] at h
  | succ n ih =>
    intro start b h
    unfold searchM at h
    rcases hf : f start with _ | c
    · rw [hf] at h
      obtain ⟨i, hi1, hi2, hi3, hi4⟩ := ih (start + 1) b h
      refine ⟨i, by omega, by omega, hi3, ?_⟩
      intro j hj1 hj2
      rcases Nat.eq_or_lt_of_le hj1 with rfl | hj3
      · exact hf
      · exact hi4 j hj3 hj2
    · rw [hf] at h
      exact ⟨start, le_refl _, by omega, by rw [hf]; exact h, by omega⟩

lemma searchM_isSome {α : Type} (f : Nat → Option α) :
    ∀ (n start i : Nat) (b : α), start ≤ i → i < start + n → f i = some b →
      ∃ c, searchM n start f = some c := by
  intro n
  induction n with
  | zero => intro start i b h1 h2; omega
  | succ n ih =>
    intro start i b h1 h2 h3
    unfold searchM
    rcases hf : f start with _ | c
    · rcases Nat.eq_or_lt_of_le h1 with rfl | h4
      · rw [hf] at h3
        simp at h3
      · exact ih (start + 1) i b h4 (by omega) h3
    · exact ⟨c, rfl⟩

lemma searchDown_top {α : Type} (f : Nat → Option α) (k : Nat) (b : α)
    (h : f k = some b) : searchDown k f = some b := by
  cases k with
  | zero => exact h
  | succ k => unfold searchDown; rw [h]

lemma searchDown_exists {α : Type} (f : Nat → Option α) :
    ∀ (k : Nat) (b : α), searchDown k f = some b → ∃ i, i ≤ k ∧ f i = some b := by
  intro k
  induction k with
  | zero => intro b h; exact ⟨0, le_refl _, h⟩
  | succ k ih =>
    intro b h
    unfold searchDown at h
    rcases hf : f (k + 1) with _ | c
    · rw [hf] at h
      obtain ⟨i, hi1, hi2⟩ := ih b h
      exact ⟨i, by omega, hi2⟩
    · rw [hf] at h
      exact ⟨k + 1, le_refl _, by rw [hf]; exact h⟩

lemma dollarSplit_nlf {r : Str} (h : '\n' ∉ r) : dollarSplit r = some r := by
  unfold dollarSplit
  rw [if_pos h]

lemma head?_mem {l : Str} {c : Char} (h : l.head? = some c) : c ∈ l := by
  cases l with
  | nil => simp at h
  | cons a t =>
    simp at h
    subst h
    exact List.mem_cons_self a t

lemma mem_of_mem_dropWhile {p : Char → Bool} {l : Str} {c : Char}
    (h : c ∈ l.dropWhile p) : c ∈ l := by
  obtain ⟨t, ht⟩ := exists_dropWhile_suffix p l
  rw [← ht]
  exact List.mem_append_right t h

lemma getLast?_eq_none_imp : ∀ (l : Str), l.getLast? = none → l = [] := by
  intro l
  induction l with
  | nil => intro; rfl
  | cons a t ih =>
    intro h
    cases t with
    | nil => simp at h
    | cons b t2 =>
      rw [List.getLast?_cons_cons] at h
      exact absurd (ih h) (by simp)

lemma mem_of_getLast? : ∀ {l : Str} {c : Char}, l.getLast? = some c → c ∈ l := by
  intro l
  induction l with
  | nil => intro c h; simp at h
  | cons a t ih =>
    intro c h
    cases t with
    | nil =>
      simp at h
      rw [h]
      exact List.mem_cons_self _ _
    | cons b t2 =>
      rw [List.getLast?_cons_cons] at h
      exact List.mem_cons_of_mem a (ih h)

lemma getLast?_drop_of_ne_nil : ∀ (n : Nat) (l : Str), l.drop n ≠ [] →
    (l.drop n).getLast? = l.getLast? := by
  intro n
  induction n with
  | zero => intro l h; rfl
  | succ n ih =>
    intro l h
    cases l with
    | nil => simp at h
    | cons c t =>
      rw [List.drop_succ_cons] at h ⊢
      rw [ih t h]
      cases t with
      | nil => simp at h
      | cons b t2 => rw [List.getLast?_cons_cons]

lemma strip_getLast_not_ws {s : Str} {c : Char}
    (h : (strip s).getLast? = some c) : isPySpace c = false := by
  unfold strip at h
  rw [List.getLast?_reverse] at h
  rcases hd : ((s.dropWhile isPySpace).reverse.dropWhile isPySpace) with _ | ⟨x, xs⟩
  · rw [hd] at h
    simp at h
  · rw [hd] at h
    simp at h
    rw [← h]
    exact dropWhile_head_not hd

lemma strip_ne_nil_of_getLast {s : Str} {c : Char} (h : s.getLast? = some c)
    (hc : isPySpace c = false) : strip s ≠ [] := by
  intro hnil
  have := (nonWs_eq_nil s).mp ((strip_eq_nil_iff s).mp hnil)
  rw [this c (mem_of_getLast? h)] at hc
  simp at hc

lemma strip_ne_nil_of_last_not_ws {a : Str}
    (h : ∃ c, a.getLast? = some c ∧ isPySpace c = false) : strip a ≠ [] := by
  obtain ⟨c, h1, h2⟩ := h
  exact strip_ne_nil_of_getLast h1 h2

lemma replaceAllAux_subset (pat : Str) :
    ∀ (fuel : Nat) (s : Str) (c : Char), c ∈ replaceAllAux pat fuel s → c ∈ s := by
  intro fuel
  induction fuel with
  | zero =>
    intro s c h
    cases s with
    | nil => simp [replaceAllAux] at h
    | cons a t => exact h
  | succ fuel ih =>
    intro s c h
    cases s with
    | nil => simp [replaceAllAux] at h
    | cons a t =>
      unfold replaceAllAux at h
      by_cases hs : startsWithSeq pat (a :: t) = true
      · rw [if_pos hs] at h
        exact List.drop_subset _ _ (ih _ c h)
      · rw [if_neg hs] at h
        rcases List.mem_cons.mp h with rfl | h2
        · exact List.mem_cons_self _ _
        · exact List.mem_cons_of_mem a (ih _ c h2)

lemma strip_subset {s : Str} {c : Char} (h : c ∈ strip s) : c ∈ s := by
  unfold strip at h
  rw [List.mem_reverse] at h
  have h2 := mem_of_mem_dropWhile h
  rw [List.mem_reverse] at h2
  exact mem_of_mem_dropWhile h2

lemma drop_wsRunLen (l : Str) : l.drop (wsRunLen l) = l.dropWhile isPySpace := by
  unfold wsRunLen
  have h2 := List.drop_left (l.takeWhile isPySpace) (l.dropWhile isPySpace)
  rw [List.takeWhile_append_dropWhile] at h2
  exact h2

lemma authorCand_none_of_no_hyphen {s' : Str} {K : Str → Option Str}
    (h : '-' ∉ s') (m : Nat) : authorCand s' K m = none := by
  unfold authorCand
  by_cases h1 : '\n' ∈ s'.take m
  · rw [if_pos h1]
  · rw [if_neg h1]
    rcases hh : ((s'.drop m).drop (wsRunLen (s'.drop m))).head? with _ | hc
    · simp only [hh]
    · simp only [hh]
      have hmem : hc ∈ s' :=
        List.drop_subset _ _ (List.drop_subset _ _ (head?_mem hh))
    
      have : ¬ hc = '-' := by
        intro heq
        rw [heq] at hmem
        exact h hmem
      rw [if_neg this]

lemma authorCand_inv {s' : Str} {K : Str → Option Str} {m : Nat} {a t : Str}
    (h : authorCand s' K m = some (a, t)) :
    a = s'.take m ∧
    ((s'.drop m).drop (wsRunLen (s'.drop m))).head? = some '-' ∧
    ∃ k4, K (((s'.drop m).drop (wsRunLen (s'.drop m) + 1)).drop k4) = some t := by
  unfold authorCand at h
  by_cases h1 : '\n' ∈ s'.take m
  · rw [if_pos h1] at h
    simp at h
  · rw [if_neg h1] at h
    rcases hh : ((s'.drop m).drop (wsRunLen (s'.drop m))).head? with _ | hc
    · simp only [hh] at h
      exact absurd h (by simp)
    · simp only [hh] at h
      by_cases hc2 : hc = '-'
      · subst hc2
        rw [if_pos rfl] at h
        obtain ⟨k4, -, hk4⟩ := searchDown_exists _ _ _ h
        rcases hKv : K (((s'.drop m).drop (wsRunLen (s'.drop m) + 1)).drop k4) with _ | t0
        · rw [hKv] at hk4
          simp at hk4
        · rw [hKv] at hk4
          simp at hk4
          exact ⟨hk4.1.symm, rfl, k4, by rw [hKv, hk4.2]⟩
      · rw [if_neg hc2] at h
        simp at h

lemma authorCand_some_of_head {s' : Str} (hnl : '\n' ∉ s') {m : Nat}
    (hhead : ((s'.drop m).drop (wsRunLen (s'.drop m))).head? = some '-') :
    ∃ t, authorCand s' dollarSplit m = some (s'.take m, t) := by
  unfold authorCand
  rw [if_neg (fun hc => hnl (List.take_subset _ _ hc))]
  simp only [hhead, if_true]
  have hK : dollarSplit (((s'.drop m).drop (wsRunLen (s'.drop m) + 1)).drop
      (wsRunLen ((s'.drop m).drop (wsRunLen (s'.drop m) + 1)))) =
      some (((s'.drop m).drop (wsRunLen (s'.drop m) + 1)).drop
        (wsRunLen ((s'.drop m).drop (wsRunLen (s'.drop m) + 1)))) :=
    dollarSplit_nlf (fun hc => hnl
      (List.drop_subset _ _ (List.drop_subset _ _ (List.drop_subset _ _ hc))))
  refine ⟨((s'.drop m).drop (wsRunLen (s'.drop m) + 1)).drop
    (wsRunLen ((s'.drop m).drop (wsRunLen (s'.drop m) + 1))), ?_⟩
  apply searchDown_top
  rw [hK]
  rfl

lemma drop_eq_get_cons :
    ∀ (l : Str) (n : Nat) (h : n < l.length), l.drop n = l.get ⟨n, h⟩ :: l.drop (n + 1) := by
  intro l
  induction l with
  | nil => intro n h; simp at h
  | cons c t ih =>
    intro n h
    cases n with
    | zero => rfl
    | succ n =>
      rw [List.drop_succ_cons, ih n (by simpa using h), List.drop_succ_cons]
      rfl

lemma take_getLast {l : Str} {k : Nat} (h2 : k < l.length) :
    (l.take (k + 1)).getLast? = some (l.get ⟨k, h2⟩) := by
  rw [List.take_succ, List.getElem?_eq_getElem h2,
    show (some l[k]).toList = [l[k]] from rfl, List.getLast?_concat]
  rfl

lemma tryAuthorGroup_spec {s' : Str} (hnl : '\n' ∉ s') :
    ('-' ∉ s' → tryAuthorGroup s' dollarSplit = none) ∧
    ('-' ∈ s' → ∃ b, tryAuthorGroup s' dollarSplit = some b) ∧
    (∀ a t, tryAuthorGroup s' dollarSplit = some (a, t) →
      (∃ n, t = s'.drop n) ∧
      (a ≠ [] → ∃ c, a.getLast? = some c ∧ isPySpace c = false)) := by
  refine ⟨?_, ?_, ?_⟩
  · intro hnh
    exact searchM_none _ _ _ (authorCand_none_of_no_hyphen hnh)
  · intro hh
    obtain ⟨pre, post, hsp⟩ := List.append_of_mem hh
    have hhead : ((s'.drop pre.length).drop (wsRunLen (s'.drop pre.length))).head? = some '-' := by
      rw [hsp, List.drop_left]
      have : wsRunLen ('-' :: post) = 0 := by
        unfold wsRunLen
        rw [List.takeWhile_cons_of_neg (by decide)]
        rfl
      rw [this]
      rfl
    obtain ⟨t, ht⟩ := authorCand_some_of_head hnl hhead
    have hlen : pre.length ≤ s'.length := by
      rw [hsp]
      simp
    obtain ⟨c, hc⟩ := searchM_isSome (authorCand s' dollarSplit) (s'.length + 1) 0
      pre.length _ (Nat.zero_le _) (by omega) ht
    exact ⟨c, hc⟩
  · intro a t h
    obtain ⟨m, -, hm2, hm3, hm4⟩ := searchM_first _ _ _ _ h
    obtain ⟨ha, hhead, k4, hk4⟩ := authorCand_inv hm3
    constructor
    · have hnlk : '\n' ∉ ((s'.drop m).drop (wsRunLen (s'.drop m) + 1)).drop k4 :=
        fun hc => hnl (List.drop_subset _ _ (List.drop_subset _ _ (List.drop_subset _ _ hc)))
      rw [dollarSplit_nlf hnlk] at hk4
      have ht := Option.some.inj hk4
      rw [List.drop_drop, List.drop_drop] at ht
      exact ⟨_, ht.symm⟩
    · intro hane
      have hmle : m ≤ s'.length := by omega
      have hm1 : 1 ≤ m := by
        by_contra hm0
        have : m = 0 := by omega
        rw [this] at ha
        simp at ha
        exact hane ha
      have hlt : m - 1 < s'.length := by omega
      set w := s'.get ⟨m - 1, hlt⟩ with hw
      have hwlast : a.getLast? = some w := by
        rw [ha, show m = m - 1 + 1 from by omega]
        exact take_getLast hlt
      refine ⟨w, hwlast, ?_⟩
      by_contra hws
      have hwss : isPySpace w = true := by
        cases hb : isPySpace w
        · exact absurd hb hws
        · rfl
      have hdropm : s'.drop (m - 1) = w :: s'.drop m := by
        have hm' : m - 1 + 1 = m := by omega
        rw [drop_eq_get_cons s' (m - 1) hlt, hm']
      have hrun : wsRunLen (s'.drop (m - 1)) = wsRunLen (s'.drop m) + 1 := by
        rw [hdropm]
        unfold wsRunLen
        rw [List.takeWhile_cons_of_pos hwss]
        simp
      have hhead2 : ((s'.drop (m - 1)).drop (wsRunLen (s'.drop (m - 1)))).head? = some '-' := by
        rw [hrun, hdropm, List.drop_succ_cons]
        exact hhead
      obtain ⟨t2, ht2⟩ := authorCand_some_of_head hnl hhead2
      have := hm4 (m - 1) (Nat.zero_le _) (by omega)
      rw [this] at ht2
      simp at ht2

lemma authorThenRest_spec {s' : Str} (hnl : '\n' ∉ s') :
    (∃ g2 t, authorThenRest s' = some (g2, t)) ∧
    ('-' ∉ s' → authorThenRest s' = some (none, s')) ∧
    (∀ g2 t, authorThenRest s' = some (g2, t) →
      (∃ n, t = s'.drop n) ∧
      (∀ a, g2 = some a → a ≠ [] →
        ∃ c, a.getLast? = some c ∧ isPySpace c = false)) := by
  obtain ⟨hnone, hsome, hinv⟩ := tryAuthorGroup_spec hnl
  refine ⟨?_, ?_, ?_⟩
  · unfold authorThenRest
    rcases hag : tryAuthorGroup s' dollarSplit with _ | ⟨a, t⟩
    · rw [dollarSplit_nlf hnl]
      exact ⟨none, s', rfl⟩
    · exact ⟨some a, t, rfl⟩
  · intro hnh
    unfold authorThenRest
    rw [hnone hnh, dollarSplit_nlf hnl]
    rfl
  · intro g2 t h
    unfold authorThenRest at h
    rcases hag : tryAuthorGroup s' dollarSplit with _ | ⟨a, t0⟩
    · rw [hag, dollarSplit_nlf hnl] at h
      simp at h
      obtain ⟨rfl, rfl⟩ := h
      exact ⟨⟨0, rfl⟩, by intro a ha; simp at ha⟩
    · rw [hag] at h
      simp at h
      obtain ⟨rfl, rfl⟩ := h
      obtain ⟨hdrop2, hlast⟩ := hinv a t0 hag
      refine ⟨hdrop2, ?_⟩
      intro a2 ha2 hane
      obtain rfl := Option.some.inj ha2
      exact hlast hane

/-- The year-group shape of the cleaned name: exactly four (ASCII) digits,
then optional whitespace, then a hyphen. -/
def yearShape (s : Str) : Prop :=
  (s.take 4).length = 4 ∧ (s.take 4).all Char.isDigit = true ∧
  ((s.drop 4).dropWhile isPySpace).head? = some '-'

instance (s : Str) : Decidable (yearShape s) := by
  unfold yearShape
  infer_instance

lemma tryYearGroup_none {s : Str} (h : ¬ yearShape s) :
    tryYearGroup s authorThenRest = none := by
  unfold tryYearGroup
  by_cases h1 : (s.take 4).length = 4 ∧ (s.take 4).all Char.isDigit
  · rw [if_pos h1]
    rcases hh : ((s.drop 4).drop (wsRunLen (s.drop 4))).head? with _ | hc
    · simp only [hh]
    · simp only [hh]
      have hne : ¬ hc = '-' := by
        intro heq
        subst heq
        rw [drop_wsRunLen] at hh
        exact h ⟨h1.1, by simpa using h1.2, hh⟩
      rw [if_neg hne]
  · rw [if_neg h1]

lemma tryYearGroup_some {s : Str} (hnl : '\n' ∉ s) (h : yearShape s) :
    ∃ g2 t, tryYearGroup s authorThenRest = some (s.take 4, g2, t) ∧
      (∃ n, t = s.drop n) ∧
      (∀ a, g2 = some a → a ≠ [] →
        ∃ c, a.getLast? = some c ∧ isPySpace c = false) := by
  obtain ⟨h1, h2, h3⟩ := h
  unfold tryYearGroup
  rw [if_pos ⟨h1, by simpa using h2⟩]
  rw [← drop_wsRunLen (s.drop 4)] at h3
  simp only [h3, if_true]
  have hnl2 : '\n' ∉ ((s.drop 4).drop (wsRunLen (s.drop 4) + 1)).drop
      (wsRunLen ((s.drop 4).drop (wsRunLen (s.drop 4) + 1))) :=
    fun hc => hnl (List.drop_subset _ _ (List.drop_subset _ _ (List.drop_subset _ _ hc)))
  obtain ⟨hex, -, hinv⟩ := authorThenRest_spec hnl2
  obtain ⟨g2, t, hat⟩ := hex
  refine ⟨g2, t, ?_, ?_, ?_⟩
  · apply searchDown_top
    rw [hat]
    rfl
  · obtain ⟨⟨n, hn⟩, -⟩ := hinv g2 t hat
    rw [List.drop_drop, List.drop_drop, List.drop_drop] at hn
    exact ⟨_, hn⟩
  · exact fun a ha hane => (hinv g2 t hat).2 a ha hane

lemma matchParseRegex_spec {s : Str} (hnl : '\n' ∉ s) :
    ∃ g1 g2 t, matchParseRegex s = some (g1, g2, t) ∧
      (yearShape s → g1 = some (s.take 4)) ∧
      (¬ yearShape s → g1 = none) ∧
      ('-' ∉ s → g2 = none ∧ t = s) ∧
      (∃ n, t = s.drop n) ∧
      (∀ a, g2 = some a → a ≠ [] →
        ∃ c, a.getLast? = some c ∧ isPySpace c = false) := by
  by_cases hys : yearShape s
  · obtain ⟨g2, t, hyt, hdrop2, hlast⟩ := tryYearGroup_some hnl hys
    refine ⟨some (s.take 4), g2, t, ?_, fun _ => rfl, fun h => absurd hys h, ?_,
      hdrop2, hlast⟩
    · unfold matchParseRegex
      rw [hyt]
    · intro hnh
      exact absurd (List.drop_subset _ _ (mem_of_mem_dropWhile (head?_mem hys.2.2))) hnh
  · have hnone := tryYearGroup_none hys
    obtain ⟨⟨g2, t, hat⟩, hnh, hinv⟩ := authorThenRest_spec hnl
    obtain ⟨hdrop2, hlast⟩ := hinv g2 t hat
    refine ⟨none, g2, t, ?_, fun h => absurd h hys, fun _ => rfl, ?_, hdrop2, hlast⟩
    · unfold matchParseRegex
      rw [hnone, hat]
      rfl
    · intro hnh2
      have h2 := hnh hnh2
      rw [hat] at h2
      have h3 := Option.some.inj h2
      exact ⟨congrArg Prod.fst h3, congrArg Prod.snd h3⟩

lemma ws_not_digit {c : Char} (hw : isPySpace c = true) : Char.isDigit c = false := by
  unfold isPySpace at hw
  simp only [Bool.or_eq_true, decide_eq_true_eq] at hw
  rcases hw with ((((h | h) | h) | h) | h) | h <;> subst h <;> decide

lemma strip_of_no_ws {s : Str} (hnw : ∀ c ∈ s, isPySpace c = false) :
    strip s = s := by
  have hdw1 : s.dropWhile isPySpace = s := by
    cases s with
    | nil => rfl
    | cons a t => exact List.dropWhile_cons_of_neg (by simp [hnw a (List.mem_cons_self a t)])
  have hdw2 : s.reverse.dropWhile isPySpace = s.reverse := by
    cases hr : s.reverse with
    | nil => rfl
    | cons b t2 =>
      have hb : b ∈ s := by
        rw [← List.mem_reverse, hr]
        exact List.mem_cons_self _ _
      exact List.dropWhile_cons_of_neg (by simp [hnw b hb])
  unfold strip
  rw [hdw1, hdw2, List.reverse_reverse]

lemma strip_of_all_digits {s : Str} (h : s.all Char.isDigit = true) : strip s = s := by
  apply strip_of_no_ws
  intro c hc
  have hd := List.all_eq_true.mp h c hc
  cases hb : isPySpace c
  · rfl
  · rw [ws_not_digit hb] at hd
    simp at hd

/-- C10 (amended): for every newline-free filename, `_parse_filename_metadata`
returns `(year, author, title)` without raising; `year` is the first four
digits of the cleaned name (the filename with every `".pdf"` removed, then
stripped) exactly when the cleaned name starts with four digits followed by
optional whitespace and a hyphen, and `"Unknown"` otherwise; a cleaned name
without a hyphen yields author `"Unknown"` and title equal to the cleaned
name; `year` and `author` are never empty, and `title` is empty only when
the cleaned name itself is empty. -/
theorem parseFilename_fields (filename : Str) (hnl : '\n' ∉ filename) :
    (yearShape (strip (replaceAll (s2l ".pdf") filename)) →
      (parse_filename_metadata filename).1 =
        (strip (replaceAll (s2l ".pdf") filename)).take 4) ∧
    (¬ yearShape (strip (replaceAll (s2l ".pdf") filename)) →
      (parse_filename_metadata filename).1 = s2l "Unknown") ∧
    ('-' ∉ strip (replaceAll (s2l ".pdf") filename) →
      (parse_filename_metadata filename).2.1 = s2l "Unknown" ∧
      (parse_filename_metadata filename).2.2 = strip (replaceAll (s2l ".pdf") filename)) ∧
    (parse_filename_metadata filename).1 ≠ [] ∧
    (parse_filename_metadata filename).2.1 ≠ [] ∧
    ((parse_filename_metadata filename).2.2 = [] →
      strip (replaceAll (s2l ".pdf") filename) = []) := by
  have hnlc : '\n' ∉ strip (replaceAll (s2l ".pdf") filename) := by
    intro hc
    exact hnl (replaceAllAux_subset _ _ _ _ (strip_subset hc))
  obtain ⟨g1, g2, t, hm, hy1, hy2, hnh, ⟨n, hdropn⟩, hlast⟩ := matchParseRegex_spec hnlc
  have hres : parse_filename_metadata filename =
      (if t ≠ [] then
        (if truthyOpt g1 then strip (g1.getD []) else s2l "Unknown",
         if truthyOpt g2 then strip (g2.getD []) else s2l "Unknown",
         strip t)
      else if truthyOpt g2 then
        (if truthyOpt g1 then strip (g1.getD []) else s2l "Unknown",
         s2l "Unknown", strip (g2.getD []))
      else
        (if truthyOpt g1 then strip (g1.getD []) else s2l "Unknown",
         if truthyOpt g2 then strip (g2.getD []) else s2l "Unknown",
         strip (replaceAll (s2l ".pdf") filename))) := by
    unfold parse_filename_metadata
    rw [hm]
  have hfst : (parse_filename_metadata filename).1 =
      (if truthyOpt g1 then strip (g1.getD []) else s2l "Unknown") := by
    rw [hres]
    by_cases het : t ≠ []
    · rw [if_pos het]
    · rw [if_neg het]
      by_cases hea : truthyOpt g2 = true
      · rw [if_pos hea]
      · rw [if_neg hea]
  have hc1 : yearShape (strip (replaceAll (s2l ".pdf") filename)) →
      (parse_filename_metadata filename).1 =
        (strip (replaceAll (s2l ".pdf") filename)).take 4 := by
    intro hys
    rw [hfst, hy1 hys]
    have hne4 : (strip (replaceAll (s2l ".pdf") filename)).take 4 ≠ [] := by
      intro h0
      have := hys.1
      rw [h0] at this
      simp at this
    have htr : truthyOpt (some ((strip (replaceAll (s2l ".pdf") filename)).take 4)) = true := by
      simp [truthyOpt, List.isEmpty_iff, hne4]
    rw [if_pos htr]
    exact strip_of_all_digits hys.2.1
  have hc2 : ¬ yearShape (strip (replaceAll (s2l ".pdf") filename)) →
      (parse_filename_metadata filename).1 = s2l "Unknown" := by
    intro hys
    rw [hfst, hy2 hys]
    rfl
  have hAne : (if truthyOpt g2 then strip (g2.getD []) else s2l "Unknown") ≠ [] := by
    by_cases htr : truthyOpt g2 = true
    · rw [if_pos htr]
      rcases g2 with _ | a
      · simp [truthyOpt] at htr
      · have hane : a ≠ [] := by
          simp [truthyOpt, List.isEmpty_iff] at htr
          exact htr
        show strip a ≠ []
        exact strip_ne_nil_of_last_not_ws (hlast a rfl hane)
    · rw [if_neg htr]
      decide
  have hc3 : '-' ∉ strip (replaceAll (s2l ".pdf") filename) →
      (parse_filename_metadata filename).2.1 = s2l "Unknown" ∧
      (parse_filename_metadata filename).2.2 =
        strip (replaceAll (s2l ".pdf") filename) := by
    intro hnh2
    obtain ⟨hg2, ht⟩ := hnh hnh2
    rw [hres, hg2]
    by_cases het : t ≠ []
    · rw [if_pos het]
      refine ⟨by simp [truthyOpt], ?_⟩
      show strip t = _
      rw [ht]
      exact strip_idem _
    · rw [if_neg het]
      rw [if_neg (by simp [truthyOpt])]
      exact ⟨by simp [truthyOpt], rfl⟩
  have hc4 : (parse_filename_metadata filename).1 ≠ [] := by
    by_cases hys : yearShape (strip (replaceAll (s2l ".pdf") filename))
    · rw [hc1 hys]
      intro h0
      have := hys.1
      rw [h0] at this
      simp at this
    · rw [hc2 hys]
      decide
  have hc5 : (parse_filename_metadata filename).2.1 ≠ [] := by
    rw [hres]
    by_cases het : t ≠ []
    · rw [if_pos het]
      exact hAne
    · rw [if_neg het]
      by_cases hea : truthyOpt g2 = true
      · rw [if_pos hea]
        show s2l "Unknown" ≠ []
        decide
      · rw [if_neg hea]
        exact hAne
  have hc6 : (parse_filename_metadata filename).2.2 = [] →
      strip (replaceAll (s2l ".pdf") filename) = [] := by
    rw [hres]
    by_cases het : t ≠ []
    · rw [if_pos het]
      intro habs
      exfalso
      have hdne : (strip (replaceAll (s2l ".pdf") filename)).drop n ≠ [] := by
        rw [← hdropn]
        exact het
      have hgl : t.getLast? = (strip (replaceAll (s2l ".pdf") filename)).getLast? := by
        rw [hdropn]
        exact getLast?_drop_of_ne_nil n _ hdne
      rcases hgl2 : t.getLast? with _ | c
      · exact het (getLast?_eq_none_imp t hgl2)
      · rw [hgl2] at hgl
        have hcw : isPySpace c = false := strip_getLast_not_ws hgl.symm
        exact strip_ne_nil_of_getLast hgl2 hcw habs
    · rw [if_neg het]
      by_cases hea : truthyOpt g2 = true
      · rw [if_pos hea]
        intro habs
        exfalso
        rcases g2 with _ | a
        · simp [truthyOpt] at hea
        · have hane : a ≠ [] := by
            simp [truthyOpt, List.isEmpty_iff] at hea
            exact hea
          exact strip_ne_nil_of_last_not_ws (hlast a rfl hane) habs
      · rw [if_neg hea]
        exact fun h => h
  exact ⟨hc1, hc2, hc3, hc4, hc5, hc6⟩

/-- C10 counterexample: for filename `".pdf"` the cleaned name is empty and
the returned title is the empty string (refuting that no component is ever
empty); for filename `"1234 - a\nb.pdf"` the cleaned name starts with four
digits, whitespace and a hyphen, yet the year is `"Unknown"` because the
overall regex match fails on the interior newline (`.` does not match
newlines and `$` only accepts a trailing one). -/
theorem parseFilename_counterexample :
    parse_filename_metadata (s2l ".pdf") = (s2l "Unknown", s2l "Unknown", []) ∧
    parse_filename_metadata (s2l "1234 - a\nb.pdf") =
      (s2l "Unknown", s2l "Unknown", s2l "1234 - a\nb") := by
  constructor
  · decide
  · decide

/-- C10 witness: the field theorem at the concrete standard filename
`"2021 - Smith - A Title.pdf"`, with the newline-free and year-shape
antecedents discharged. -/
theorem parseFilename_fields_witness :
    (parse_filename_metadata (s2l "2021 - Smith - A Title.pdf")).1 =
      (strip (replaceAll (s2l ".pdf") (s2l "2021 - Smith - A Title.pdf"))).take 4 :=
  (parseFilename_fields (s2l "2021 - Smith - A Title.pdf") (by decide)).1 (by decide)
